import Mathlib

/-!
Verification of the k-out-of-n maintenance model (`src/maintenance.py`).

The numeric core of the repository is embedded over the exact rationals `ℚ`:
`birth_death_stationary_distribution`, `system_availability` and
`optimize_components_and_repairmen` below follow the Python source line by
line (machine floats are idealised as rationals, and Python's
`float('inf')` sentinel for the running minimum cost becomes `⊤ : WithTop ℚ`).
-/

namespace Maintenance

/-- Embeds `birth_rates[i] = min(i, k) * gamma` from
`birth_death_stationary_distribution` (repairs completed per unit time in
state `i`, at most `k` simultaneous repairs). -/
def birth_rate (gamma : ℚ) (k : ℕ) (i : ℕ) : ℚ := ((min i k : ℕ) : ℚ) * gamma

/-- Embeds the death-rate assignment of `birth_death_stationary_distribution`:
with `working = n - i`, warm standby gives `working * mu`; cold standby gives
`m * mu` when `working >= m` and `0` otherwise. -/
def death_rate (mu : ℚ) (warm_standby : Bool) (n m : ℕ) (i : ℕ) : ℚ :=
  if warm_standby then ((n - i : ℕ) : ℚ) * mu
  else if m ≤ n - i then (m : ℚ) * mu else 0

/-- Embeds the unnormalized recurrence loop of
`birth_death_stationary_distribution`: `pi[0] = 1.0` and, for `i ≥ 1`,
`pi[i] = pi[i-1] * death_rates[i-1] / birth_rates[i]` when
`birth_rates[i] > 0`, else `pi[i] = 0`. -/
def piUnnorm (mu gamma : ℚ) (warm_standby : Bool) (n m k : ℕ) : ℕ → ℚ
  | 0 => 1
  | i + 1 =>
    if 0 < birth_rate gamma k (i + 1) then
      piUnnorm mu gamma warm_standby n m k i * death_rate mu warm_standby n m i /
        birth_rate gamma k (i + 1)
    else 0

/-- Embeds `pi_sum = np.sum(pi)`: the sum of the unnormalized vector over the
`n + 1` states. -/
def piSum (mu gamma : ℚ) (warm_standby : Bool) (n m k : ℕ) : ℚ :=
  ∑ i in Finset.range (n + 1), piUnnorm mu gamma warm_standby n m k i

/-- Embeds `birth_death_stationary_distribution`: the unnormalized vector over
states `0 .. n`, divided entrywise by its sum (`pi /= pi_sum`).  The Python
code performs this division unconditionally; in `ℚ` a division by a zero sum
yields `0` where numpy would yield non-finite floats — with non-negative rates
the sum is at least `1`, so the two semantics agree on valid inputs. -/
def birth_death_stationary_distribution (mu gamma : ℚ) (warm_standby : Bool)
    (n m k : ℕ) : List ℚ :=
  (List.range (n + 1)).map
    (fun i => piUnnorm mu gamma warm_standby n m k i / piSum mu gamma warm_standby n m k)

/-- Embeds `system_availability`: the sum of the first `n - m + 1` entries of
the stationary distribution (`np.sum(pi[:max_failed_allowed + 1])` with
`max_failed_allowed = n - m`). -/
def system_availability (mu gamma : ℚ) (warm_standby : Bool) (n m k : ℕ) : ℚ :=
  ((birth_death_stationary_distribution mu gamma warm_standby n m k).take (n - m + 1)).sum

/-- Embeds the cost expression of `optimize_components_and_repairmen`:
`component_cost * n + repairman_cost * k + downtime_cost * (1 - availability)`. -/
def costOf (mu gamma : ℚ) (warm_standby : Bool) (m : ℕ)
    (component_cost repairman_cost downtime_cost : ℚ) (n k : ℕ) : ℚ :=
  component_cost * n + repairman_cost * k +
    downtime_cost * (1 - system_availability mu gamma warm_standby n m k)

/-- State of the optimizer's scan: `(best_n, best_k, min_cost)`, with
`None, None, float('inf')` embedded as `(none, none, ⊤)`. -/
abbrev OptState : Type := Option ℕ × Option ℕ × WithTop ℚ

/-- Embeds one iteration of the optimizer's inner loop body: skip when
`m > n`, otherwise update `(best_n, best_k, min_cost)` exactly when the cost
is strictly below the running minimum. -/
def optStep (mu gamma : ℚ) (warm_standby : Bool) (m : ℕ)
    (component_cost repairman_cost downtime_cost : ℚ) (n k : ℕ) (st : OptState) : OptState :=
  if m > n then st
  else if (costOf mu gamma warm_standby m component_cost repairman_cost downtime_cost n k :
      WithTop ℚ) < st.2.2 then
    (some n, some k,
      (costOf mu gamma warm_standby m component_cost repairman_cost downtime_cost n k :
        WithTop ℚ))
  else st

/-- Embeds `optimize_components_and_repairmen`: double iteration, outer over
`n_range`, inner over `k_range`, starting from `(None, None, inf)`. -/
def optimize_components_and_repairmen (mu gamma : ℚ) (warm_standby : Bool) (m : ℕ)
    (component_cost repairman_cost downtime_cost : ℚ)
    (n_range k_range : List ℕ) : OptState :=
  n_range.foldl
    (fun st n =>
      k_range.foldl
        (fun st k => optStep mu gamma warm_standby m component_cost repairman_cost
          downtime_cost n k st) st)
    (none, none, (⊤ : WithTop ℚ))

/-! ### Basic lemmas about the unnormalized recurrence -/

lemma piUnnorm_zero (mu gamma : ℚ) (w : Bool) (n m k : ℕ) :
    piUnnorm mu gamma w n m k 0 = 1 := rfl

lemma piUnnorm_succ (mu gamma : ℚ) (w : Bool) (n m k i : ℕ) :
    piUnnorm mu gamma w n m k (i + 1) =
      if 0 < birth_rate gamma k (i + 1) then
        piUnnorm mu gamma w n m k i * death_rate mu w n m i / birth_rate gamma k (i + 1)
      else 0 := rfl

lemma birth_rate_nonneg {gamma : ℚ} (hgamma : 0 ≤ gamma) (k i : ℕ) :
    0 ≤ birth_rate gamma k i :=
  mul_nonneg (Nat.cast_nonneg _) hgamma

lemma death_rate_nonneg {mu : ℚ} (hmu : 0 ≤ mu) (w : Bool) (n m i : ℕ) :
    0 ≤ death_rate mu w n m i := by
  unfold death_rate
  rcases w with _ | _
  · simp only [Bool.false_eq_true, if_false]
    split
    · exact mul_nonneg (Nat.cast_nonneg _) hmu
    · exact le_refl 0
  · simp only [if_true]
    exact mul_nonneg (Nat.cast_nonneg _) hmu

lemma piUnnorm_nonneg {mu gamma : ℚ} (hmu : 0 ≤ mu) (hgamma : 0 ≤ gamma)
    (w : Bool) (n m k : ℕ) : ∀ i, 0 ≤ piUnnorm mu gamma w n m k i := by
  intro i
  induction i with
  | zero => exact zero_le_one
  | succ i ih =>
    rw [piUnnorm_succ]
    split
    · exact div_nonneg (mul_nonneg ih (death_rate_nonneg hmu w n m i)) (by linarith)
    · exact le_refl 0

lemma one_le_piSum {mu gamma : ℚ} (hmu : 0 ≤ mu) (hgamma : 0 ≤ gamma)
    (w : Bool) (n m k : ℕ) : 1 ≤ piSum mu gamma w n m k := by
  have h0 : (0 : ℕ) ∈ Finset.range (n + 1) := by simp
  have := Finset.single_le_sum
    (fun i _ => piUnnorm_nonneg hmu hgamma w n m k i) h0
  simpa [piSum, piUnnorm_zero] using this

lemma piSum_pos {mu gamma : ℚ} (hmu : 0 ≤ mu) (hgamma : 0 ≤ gamma)
    (w : Bool) (n m k : ℕ) : 0 < piSum mu gamma w n m k :=
  lt_of_lt_of_le one_pos (one_le_piSum hmu hgamma w n m k)

/-! ### Bridging the list-shaped output to indexed sums -/

lemma sum_map_range (f : ℕ → ℚ) : ∀ N, ((List.range N).map f).sum = ∑ i in Finset.range N, f i := by
  intro N
  induction N with
  | zero => simp
  | succ N ih => simp [List.range_succ, Finset.sum_range_succ, ih]

lemma dist_length (mu gamma : ℚ) (w : Bool) (n m k : ℕ) :
    (birth_death_stationary_distribution mu gamma w n m k).length = n + 1 := by
  simp [birth_death_stationary_distribution]

lemma dist_getD (mu gamma : ℚ) (w : Bool) (n m k i : ℕ) :
    (birth_death_stationary_distribution mu gamma w n m k).getD i 0 =
      if i < n + 1 then piUnnorm mu gamma w n m k i / piSum mu gamma w n m k else 0 := by
  by_cases h : i < n + 1
  · rw [if_pos h]
    have hl : i < (birth_death_stationary_distribution mu gamma w n m k).length := by
      rw [dist_length]; exact h
    rw [List.getD_eq_getElem _ _ hl]
    simp [birth_death_stationary_distribution]
  · rw [if_neg h]
    apply List.getD_eq_default
    rw [dist_length]; omega

lemma availability_eq (mu gamma : ℚ) (w : Bool) (n m k : ℕ) :
    system_availability mu gamma w n m k =
      (∑ i in Finset.range (n - m + 1), piUnnorm mu gamma w n m k i) /
        piSum mu gamma w n m k := by
  unfold system_availability birth_death_stationary_distribution
  rw [← List.map_take, List.take_range]
  have hmin : min (n - m + 1) (n + 1) = n - m + 1 := by omega
  rw [hmin, sum_map_range, ← Finset.sum_div]

lemma availability_nonneg {mu gamma : ℚ} (hmu : 0 ≤ mu) (hgamma : 0 ≤ gamma)
    (w : Bool) (n m k : ℕ) : 0 ≤ system_availability mu gamma w n m k := by
  rw [availability_eq]
  exact div_nonneg
    (Finset.sum_nonneg fun i _ => piUnnorm_nonneg hmu hgamma w n m k i)
    (le_of_lt (piSum_pos hmu hgamma w n m k))

lemma availability_le_one {mu gamma : ℚ} (hmu : 0 ≤ mu) (hgamma : 0 ≤ gamma)
    (w : Bool) (n m k : ℕ) : system_availability mu gamma w n m k ≤ 1 := by
  rw [availability_eq]
  rw [div_le_one (piSum_pos hmu hgamma w n m k)]
  unfold piSum
  apply Finset.sum_le_sum_of_subset_of_nonneg
  · apply Finset.range_subset.mpr; omega
  · exact fun i _ _ => piUnnorm_nonneg hmu hgamma w n m k i

/-! ### Claim C1 -/

/-- C1: for every valid input (`0 ≤ mu`, `0 ≤ gamma`, `1 ≤ n`, `1 ≤ m ≤ n`,
`1 ≤ k`), `birth_death_stationary_distribution` returns a vector with exactly
`n + 1` entries, every entry non-negative, and the entries summing to `1`
(exactly, in the rational-number model). -/
theorem stationary_distribution_valid (mu gamma : ℚ) (w : Bool) (n m k : ℕ)
    (hmu : 0 ≤ mu) (hgamma : 0 ≤ gamma) (hn : 1 ≤ n) (hm : 1 ≤ m) (hmn : m ≤ n)
    (hk : 1 ≤ k) :
    (birth_death_stationary_distribution mu gamma w n m k).length = n + 1 ∧
    (∀ x ∈ birth_death_stationary_distribution mu gamma w n m k, 0 ≤ x) ∧
    (birth_death_stationary_distribution mu gamma w n m k).sum = 1 := by
  refine ⟨dist_length mu gamma w n m k, ?_, ?_⟩
  · intro x hx
    rw [birth_death_stationary_distribution] at hx
    obtain ⟨i, _, rfl⟩ := List.mem_map.mp hx
    exact div_nonneg (piUnnorm_nonneg hmu hgamma w n m k i)
      (le_of_lt (piSum_pos hmu hgamma w n m k))
  · rw [birth_death_stationary_distribution, sum_map_range, ← Finset.sum_div]
    exact div_self (ne_of_gt (piSum_pos hmu hgamma w n m k))

/-- Witness for C1 at `mu = 1, gamma = 1, warm, n = 2, m = 1, k = 1`. -/
theorem stationary_distribution_valid_witness :
    (birth_death_stationary_distribution 1 1 true 2 1 1).length = 2 + 1 ∧
    (∀ x ∈ birth_death_stationary_distribution 1 1 true 2 1 1, 0 ≤ x) ∧
    (birth_death_stationary_distribution 1 1 true 2 1 1).sum = 1 :=
  stationary_distribution_valid 1 1 true 2 1 1 (by norm_num) (by norm_num)
    (by norm_num) (by norm_num) (by norm_num) (by norm_num)

/-! ### Claim C2 -/

/-- C2: the solver computes the unnormalized vector by the detailed-balance
recurrence: `pi[0] = 1`; for `1 ≤ i ≤ n`, if `birth_rates[i] > 0` then
`pi[i] = pi[i-1] * death_rates[i-1] / birth_rates[i]`, and if
`birth_rates[i] = 0` then `pi[i] = 0` (zero mass propagates forward through
the `pi[i-1]` factor, no error is raised); the returned vector is this one
divided entrywise by its sum. -/
theorem solver_recurrence (mu gamma : ℚ) (w : Bool) (n m k : ℕ) :
    piUnnorm mu gamma w n m k 0 = 1 ∧
    (∀ i, 1 ≤ i → i ≤ n →
      (0 < birth_rate gamma k i →
        piUnnorm mu gamma w n m k i =
          piUnnorm mu gamma w n m k (i - 1) * death_rate mu w n m (i - 1) /
            birth_rate gamma k i) ∧
      (birth_rate gamma k i = 0 → piUnnorm mu gamma w n m k i = 0)) ∧
    (∀ i, i ≤ n →
      (birth_death_stationary_distribution mu gamma w n m k).getD i 0 =
        piUnnorm mu gamma w n m k i / piSum mu gamma w n m k) := by
  refine ⟨rfl, ?_, ?_⟩
  · intro i h1 _
    cases i with
    | zero => omega
    | succ j =>
      rw [piUnnorm_succ]
      constructor
      · intro hb
        rw [if_pos hb]
        simp
      · intro hb
        rw [if_neg]
        rw [hb]
        exact lt_irrefl 0
  · intro i hi
    rw [dist_getD, if_pos (by omega)]

/-- Witness for C2: the recurrence instantiated at
`mu = 1, gamma = 1, warm, n = 2, m = 1, k = 1, i = 1`. -/
theorem solver_recurrence_witness :
    piUnnorm 1 1 true 2 1 1 1 =
      piUnnorm 1 1 true 2 1 1 (1 - 1) * death_rate 1 true 2 1 (1 - 1) /
        birth_rate 1 1 1 :=
  ((solver_recurrence 1 1 true 2 1 1).2.1 1 (by norm_num) (by norm_num)).1
    (by norm_num [birth_rate])

/-! ### Claim C3 -/

/-- C3: for every valid input, `system_availability` equals the sum of the
stationary probabilities `pi[0] .. pi[n-m]`, and this value lies in `[0, 1]`. -/
theorem availability_sums_up_states (mu gamma : ℚ) (w : Bool) (n m k : ℕ)
    (hmu : 0 ≤ mu) (hgamma : 0 ≤ gamma) (hn : 1 ≤ n) (hm : 1 ≤ m) (hmn : m ≤ n)
    (hk : 1 ≤ k) :
    system_availability mu gamma w n m k =
      ∑ i in Finset.range (n - m + 1),
        (birth_death_stationary_distribution mu gamma w n m k).getD i 0 ∧
    0 ≤ system_availability mu gamma w n m k ∧
    system_availability mu gamma w n m k ≤ 1 := by
  refine ⟨?_, availability_nonneg hmu hgamma w n m k,
    availability_le_one hmu hgamma w n m k⟩
  rw [availability_eq, Finset.sum_div]
  apply Finset.sum_congr rfl
  intro i hi
  rw [dist_getD, if_pos]
  have := Finset.mem_range.mp hi
  omega

/-- Witness for C3 at `mu = 1, gamma = 1, warm, n = 2, m = 1, k = 1`. -/
theorem availability_sums_up_states_witness :
    system_availability 1 1 true 2 1 1 =
      ∑ i in Finset.range (2 - 1 + 1),
        (birth_death_stationary_distribution 1 1 true 2 1 1).getD i 0 ∧
    0 ≤ system_availability 1 1 true 2 1 1 ∧
    system_availability 1 1 true 2 1 1 ≤ 1 :=
  availability_sums_up_states 1 1 true 2 1 1 (by norm_num) (by norm_num)
    (by norm_num) (by norm_num) (by norm_num) (by norm_num)

/-! ### Degenerate repair rate (claims C9, C6) -/

lemma birth_rate_gamma_zero (k i : ℕ) : birth_rate 0 k i = 0 := by
  simp [birth_rate]

lemma piUnnorm_gamma_zero (mu : ℚ) (w : Bool) (n m k : ℕ) :
    ∀ i, 1 ≤ i → piUnnorm mu 0 w n m k i = 0 := by
  intro i hi
  cases i with
  | zero => omega
  | succ j =>
    rw [piUnnorm_succ, if_neg]
    rw [birth_rate_gamma_zero]
    exact lt_irrefl 0

lemma piSum_gamma_zero (mu : ℚ) (w : Bool) (n m k : ℕ) :
    piSum mu 0 w n m k = 1 := by
  unfold piSum
  rw [Finset.sum_eq_single_of_mem 0 (by simp)]
  · rfl
  · intro b _ hb
    exact piUnnorm_gamma_zero mu w n m k b (by omega)

/-- C9: if `repairRate = 0` (and `n ≥ 1`, any `mu`, any standby mode, any
`m`, `k`), the returned stationary distribution is `pi[0] = 1` and
`pi[i] = 0` for all `i ≥ 1`. -/
theorem repair_rate_zero_collapse (mu : ℚ) (w : Bool) (n m k : ℕ)
    (hn : 1 ≤ n) :
    (birth_death_stationary_distribution mu 0 w n m k).getD 0 0 = 1 ∧
    ∀ i, 1 ≤ i → (birth_death_stationary_distribution mu 0 w n m k).getD i 0 = 0 := by
  constructor
  · rw [dist_getD, if_pos (by omega), piUnnorm_zero, piSum_gamma_zero]
    norm_num
  · intro i hi
    rw [dist_getD]
    split
    · rw [piUnnorm_gamma_zero mu w n m k i hi, zero_div]
    · rfl

/-- Witness for C9 at `mu = 5, cold, n = 3, m = 2, k = 2, i = 1`. -/
theorem repair_rate_zero_collapse_witness :
    (birth_death_stationary_distribution 5 0 false 3 2 2).getD 1 0 = 0 :=
  (repair_rate_zero_collapse 5 false 3 2 2 (by norm_num)).2 1 (by norm_num)

/-- C6 evidence: at the invalid input `mu = -1, gamma = 1, warm, n = 1, m = 1,
k = 1` the unnormalized sum is exactly `0`, and the solver still returns a
full 2-entry vector: the code performs the normalization division with no
zero-sum guard, so no `DegenerateModel` error is ever signalled. -/
theorem degenerate_sum_not_guarded :
    piSum (-1) 1 true 1 1 1 = 0 ∧
    (birth_death_stationary_distribution (-1) 1 true 1 1 1).length = 1 + 1 := by
  constructor
  · norm_num [piSum, Finset.sum_range_succ, piUnnorm, birth_rate, death_rate]
  · exact dist_length (-1) 1 true 1 1 1

/-! ### Cold-standby mass cutoff (claim C10) -/

lemma death_rate_cold_above (mu : ℚ) (n m i : ℕ) (hi : n - m + 1 ≤ i) (hm : 1 ≤ m) :
    death_rate mu false n m i = 0 := by
  unfold death_rate
  rw [if_neg (by simp), if_neg (by omega)]

lemma piUnnorm_cold_tail (mu gamma : ℚ) (n m k : ℕ) (hm : 1 ≤ m) :
    ∀ i, n - m + 2 ≤ i → piUnnorm mu gamma false n m k i = 0 := by
  have base : piUnnorm mu gamma false n m k (n - m + 2) = 0 := by
    have h2 : n - m + 2 = (n - m + 1) + 1 := by omega
    rw [h2, piUnnorm_succ]
    split
    · rw [death_rate_cold_above mu n m (n - m + 1) (by omega) hm]
      rw [mul_zero, zero_div]
    · rfl
  intro i hi
  induction i with
  | zero => omega
  | succ j ih =>
    rcases Nat.lt_or_ge (j + 1) (n - m + 3) with h | h
    · have : j + 1 = n - m + 2 := by omega
      rw [this]
      exact base
    · rw [piUnnorm_succ]
      split
      · rw [ih (by omega), zero_mul, zero_div]
      · rfl

lemma piSum_cold (mu gamma : ℚ) (n m k : ℕ) (hm : 1 ≤ m) (hmn : m ≤ n) :
    piSum mu gamma false n m k =
      (∑ i in Finset.range (n - m + 1), piUnnorm mu gamma false n m k i) +
        piUnnorm mu gamma false n m k (n - m + 1) := by
  have h1 : n - m + 2 ≤ n + 1 := by omega
  rw [piSum, Finset.range_eq_Ico,
    ← Finset.sum_Ico_consecutive _ (Nat.zero_le (n - m + 2)) h1]
  have h2 : ∑ i in Finset.Ico (n - m + 2) (n + 1), piUnnorm mu gamma false n m k i = 0 := by
    apply Finset.sum_eq_zero
    intro i hi
    exact piUnnorm_cold_tail mu gamma n m k hm i (Finset.mem_Ico.mp hi).1
  rw [h2, add_zero, ← Finset.range_eq_Ico]
  have h3 : n - m + 2 = (n - m + 1) + 1 := by omega
  rw [h3, Finset.sum_range_succ]

/-- C10: in cold standby mode, for every valid input the stationary
distribution satisfies `pi[i] = 0` for every state `i ≥ n - m + 2`, so all
mass lies in states `0 .. n - m + 1` and the unavailability
`1 - availability` equals `pi[n - m + 1]` alone. -/
theorem cold_standby_mass_cutoff (mu gamma : ℚ) (n m k : ℕ)
    (hmu : 0 ≤ mu) (hgamma : 0 ≤ gamma) (hm : 1 ≤ m) (hmn : m ≤ n) (hk : 1 ≤ k) :
    (∀ i, n - m + 2 ≤ i →
      (birth_death_stationary_distribution mu gamma false n m k).getD i 0 = 0) ∧
    1 - system_availability mu gamma false n m k =
      (birth_death_stationary_distribution mu gamma false n m k).getD (n - m + 1) 0 := by
  constructor
  · intro i hi
    rw [dist_getD]
    split
    · rw [piUnnorm_cold_tail mu gamma n m k hm i hi, zero_div]
    · rfl
  · rw [dist_getD, if_pos (by omega), availability_eq]
    have hpos : 0 < piSum mu gamma false n m k := piSum_pos hmu hgamma false n m k
    have hne : piSum mu gamma false n m k ≠ 0 := ne_of_gt hpos
    rw [eq_div_iff hne, sub_mul, div_mul_cancel₀ _ hne, one_mul,
      piSum_cold mu gamma n m k hm hmn]
    ring

/-- Witness for C10 at `mu = 1, gamma = 1, n = 3, m = 2, k = 1, i = 3`. -/
theorem cold_standby_mass_cutoff_witness :
    (birth_death_stationary_distribution 1 1 false 3 2 1).getD 3 0 = 0 :=
  (cold_standby_mass_cutoff 1 1 3 2 1 (by norm_num) (by norm_num) (by norm_num)
    (by norm_num) (by norm_num)).1 3 (by norm_num)

/-! ### Product form of the recurrence and monotonicity (claims C7, C8) -/

lemma birth_rate_pos {gamma : ℚ} (hgamma : 0 < gamma) {k : ℕ} (hk : 1 ≤ k) (i : ℕ) :
    0 < birth_rate gamma k (i + 1) := by
  unfold birth_rate
  apply mul_pos _ hgamma
  have h1 : 0 < min (i + 1) k := by omega
  exact_mod_cast h1

lemma piUnnorm_eq_prod {mu gamma : ℚ} (w : Bool) (n m : ℕ) {k : ℕ}
    (hgamma : 0 < gamma) (hk : 1 ≤ k) :
    ∀ i, piUnnorm mu gamma w n m k i =
      ∏ j in Finset.range i, (death_rate mu w n m j / birth_rate gamma k (j + 1)) := by
  intro i
  induction i with
  | zero => simp [piUnnorm_zero]
  | succ i ih =>
    rw [piUnnorm_succ, if_pos (birth_rate_pos hgamma hk i), ih,
      Finset.prod_range_succ, mul_div_assoc]

/-- Cross inequality for products of pointwise-ordered non-negative ratio
sequences: the chain with larger ratios shifts mass toward later states. -/
lemma prod_cross (r1 r2 : ℕ → ℚ) (h0 : ∀ j, 0 ≤ r2 j) (h12 : ∀ j, r2 j ≤ r1 j)
    (i l : ℕ) (hil : i ≤ l) :
    (∏ j in Finset.range i, r1 j) * (∏ j in Finset.range l, r2 j) ≤
    (∏ j in Finset.range i, r2 j) * (∏ j in Finset.range l, r1 j) := by
  obtain ⟨d, rfl⟩ := Nat.exists_eq_add_of_le hil
  rw [Finset.prod_range_add, Finset.prod_range_add]
  have h01 : ∀ j, 0 ≤ r1 j := fun j => le_trans (h0 j) (h12 j)
  have hP1 : 0 ≤ ∏ j in Finset.range i, r1 j := Finset.prod_nonneg fun j _ => h01 j
  have hP2 : 0 ≤ ∏ j in Finset.range i, r2 j := Finset.prod_nonneg fun j _ => h0 j
  have hQ : (∏ j in Finset.range d, r2 (i + j)) ≤ ∏ j in Finset.range d, r1 (i + j) :=
    Finset.prod_le_prod (fun j _ => h0 _) fun j _ => h12 _
  calc (∏ j in Finset.range i, r1 j) *
        ((∏ j in Finset.range i, r2 j) * ∏ j in Finset.range d, r2 (i + j))
      = ((∏ j in Finset.range i, r1 j) * ∏ j in Finset.range i, r2 j) *
          ∏ j in Finset.range d, r2 (i + j) := by ring
    _ ≤ ((∏ j in Finset.range i, r1 j) * ∏ j in Finset.range i, r2 j) *
          ∏ j in Finset.range d, r1 (i + j) :=
        mul_le_mul_of_nonneg_left hQ (mul_nonneg hP1 hP2)
    _ = (∏ j in Finset.range i, r2 j) *
          ((∏ j in Finset.range i, r1 j) * ∏ j in Finset.range d, r1 (i + j)) := by ring

/-- Availability of a birth-death chain in fraction form is antitone in the
per-step ratio sequence. -/
lemma ratio_avail_antitone (r1 r2 : ℕ → ℚ) (h0 : ∀ j, 0 ≤ r2 j)
    (h12 : ∀ j, r2 j ≤ r1 j) (t N : ℕ) (htN : t ≤ N) :
    (∑ i in Finset.range (t + 1), ∏ j in Finset.range i, r1 j) /
      (∑ i in Finset.range (N + 1), ∏ j in Finset.range i, r1 j) ≤
    (∑ i in Finset.range (t + 1), ∏ j in Finset.range i, r2 j) /
      (∑ i in Finset.range (N + 1), ∏ j in Finset.range i, r2 j) := by
  have h01 : ∀ j, 0 ≤ r1 j := fun j => le_trans (h0 j) (h12 j)
  have hP : ∀ (r : ℕ → ℚ), (∀ j, 0 ≤ r j) → ∀ i, 0 ≤ ∏ j in Finset.range i, r j :=
    fun r hr i => Finset.prod_nonneg fun j _ => hr j
  have hSn : ∀ (r : ℕ → ℚ), (∀ j, 0 ≤ r j) →
      (0 : ℚ) < ∑ i in Finset.range (N + 1), ∏ j in Finset.range i, r j := by
    intro r hr
    have h0mem : (0 : ℕ) ∈ Finset.range (N + 1) := by simp
    have := Finset.single_le_sum (fun i _ => hP r hr i) h0mem
    simp only [Finset.prod_range_zero] at this
    linarith
  rw [div_le_div_iff (hSn r1 h01) (hSn r2 h0)]
  have hsplit : ∀ (r : ℕ → ℚ),
      (∑ i in Finset.range (N + 1), ∏ j in Finset.range i, r j) =
        (∑ i in Finset.range (t + 1), ∏ j in Finset.range i, r j) +
        ∑ i in Finset.Ico (t + 1) (N + 1), ∏ j in Finset.range i, r j := by
    intro r
    rw [Finset.range_eq_Ico, ← Finset.sum_Ico_consecutive _ (Nat.zero_le (t + 1)) (by omega),
      ← Finset.range_eq_Ico]
  rw [hsplit r1, hsplit r2, mul_add, mul_add]
  have key : (∑ i in Finset.range (t + 1), ∏ j in Finset.range i, r1 j) *
      (∑ i in Finset.Ico (t + 1) (N + 1), ∏ j in Finset.range i, r2 j) ≤
      (∑ i in Finset.range (t + 1), ∏ j in Finset.range i, r2 j) *
      (∑ i in Finset.Ico (t + 1) (N + 1), ∏ j in Finset.range i, r1 j) := by
    rw [Finset.sum_mul_sum, Finset.sum_mul_sum]
    apply Finset.sum_le_sum
    intro i hi
    apply Finset.sum_le_sum
    intro l hl
    have hi' : i ≤ t := by have := Finset.mem_range.mp hi; omega
    have hl' : t + 1 ≤ l := (Finset.mem_Ico.mp hl).1
    exact prod_cross r1 r2 h0 h12 i l (by omega)
  have hcomm : (∑ i in Finset.range (t + 1), ∏ j in Finset.range i, r1 j) *
      (∑ i in Finset.range (t + 1), ∏ j in Finset.range i, r2 j) =
      (∑ i in Finset.range (t + 1), ∏ j in Finset.range i, r2 j) *
      (∑ i in Finset.range (t + 1), ∏ j in Finset.range i, r1 j) := mul_comm _ _
  linarith

lemma availability_eq_frac (mu : ℚ) {gamma : ℚ} (w : Bool) (n m : ℕ) {k : ℕ}
    (hgamma : 0 < gamma) (hk : 1 ≤ k) :
    system_availability mu gamma w n m k =
      (∑ i in Finset.range (n - m + 1),
        ∏ j in Finset.range i, (death_rate mu w n m j / birth_rate gamma k (j + 1))) /
      (∑ i in Finset.range (n + 1),
        ∏ j in Finset.range i, (death_rate mu w n m j / birth_rate gamma k (j + 1))) := by
  rw [availability_eq, piSum]
  congr 1
  · exact Finset.sum_congr rfl fun i _ => piUnnorm_eq_prod w n m hgamma hk i
  · exact Finset.sum_congr rfl fun i _ => piUnnorm_eq_prod w n m hgamma hk i

lemma availability_gamma_zero (mu : ℚ) (w : Bool) (n m k : ℕ) :
    system_availability mu 0 w n m k = 1 := by
  rw [availability_eq, piSum_gamma_zero]
  rw [Finset.sum_eq_single_of_mem 0 (by simp)]
  · norm_num [piUnnorm_zero]
  · intro b _ hb
    exact piUnnorm_gamma_zero mu w n m k b (by omega)

lemma birth_rate_mono_k {gamma : ℚ} (hgamma : 0 ≤ gamma) {k1 k2 : ℕ} (hk : k1 ≤ k2)
    (i : ℕ) : birth_rate gamma k1 i ≤ birth_rate gamma k2 i := by
  unfold birth_rate
  apply mul_le_mul_of_nonneg_right _ hgamma
  exact_mod_cast min_le_min (le_refl i) hk

lemma death_rate_cold_le_warm {mu : ℚ} (hmu : 0 ≤ mu) (n m j : ℕ) :
    death_rate mu false n m j ≤ death_rate mu true n m j := by
  unfold death_rate
  simp only [Bool.false_eq_true, if_false, if_true]
  rcases le_or_lt m (n - j) with h | h
  · rw [if_pos h]
    apply mul_le_mul_of_nonneg_right _ hmu
    exact_mod_cast h
  · rw [if_neg (by omega)]
    exact mul_nonneg (Nat.cast_nonneg _) hmu

/-! ### Claim C8 -/

/-- C8: for fixed `(n, m, mu, gamma, standbyMode)` and crew sizes
`k1 ≤ k2` (valid inputs), `system_availability` with `k1` is at most
`system_availability` with `k2`: availability is monotonically non-decreasing
in the repair-crew size. -/
theorem availability_mono_crew (mu gamma : ℚ) (w : Bool) (n m k1 k2 : ℕ)
    (hmu : 0 ≤ mu) (hgamma : 0 ≤ gamma) (hm : 1 ≤ m) (hmn : m ≤ n)
    (hk1 : 1 ≤ k1) (hk : k1 ≤ k2) :
    system_availability mu gamma w n m k1 ≤ system_availability mu gamma w n m k2 := by
  rcases eq_or_lt_of_le hgamma with h | h
  · rw [← h, availability_gamma_zero, availability_gamma_zero]
  · rw [availability_eq_frac mu w n m h hk1,
      availability_eq_frac mu w n m h (le_trans hk1 hk)]
    apply ratio_avail_antitone _ _ ?_ ?_ _ _ (Nat.sub_le n m)
    · intro j
      exact div_nonneg (death_rate_nonneg hmu w n m j)
        (le_of_lt (birth_rate_pos h (le_trans hk1 hk) j))
    · intro j
      have hb1 := birth_rate_pos h hk1 j
      have hb2 := birth_rate_pos h (le_trans hk1 hk) j
      rw [div_le_div_iff hb2 hb1]
      exact mul_le_mul_of_nonneg_left (birth_rate_mono_k hgamma hk (j + 1))
        (death_rate_nonneg hmu w n m j)

/-- Witness for C8 at `mu = 1, gamma = 1, warm, n = 2, m = 1, k1 = 1, k2 = 2`. -/
theorem availability_mono_crew_witness :
    system_availability 1 1 true 2 1 1 ≤ system_availability 1 1 true 2 1 2 :=
  availability_mono_crew 1 1 true 2 1 1 2 (by norm_num) (by norm_num) (by norm_num)
    (by norm_num) (by norm_num) (by norm_num)

/-! ### Claim C7 -/

/-- Counterexample to C7 as stated: at `mu = 1, gamma = 1, n = m = 2, k = 1`
the cold-standby availability is `1/3` while the warm-standby availability is
`1/5`, so the two availabilities are *not* equal when `n = m`. -/
theorem cold_warm_not_equal_at_n_eq_m :
    system_availability 1 1 false 2 2 1 = 1/3 ∧
    system_availability 1 1 true 2 2 1 = 1/5 ∧
    system_availability 1 1 false 2 2 1 ≠ system_availability 1 1 true 2 2 1 := by
  have h1 : system_availability 1 1 false 2 2 1 = 1/3 := by
    norm_num [system_availability, birth_death_stationary_distribution, piSum,
      Finset.sum_range_succ, List.range_succ, piUnnorm, birth_rate, death_rate]
  have h2 : system_availability 1 1 true 2 2 1 = 1/5 := by
    norm_num [system_availability, birth_death_stationary_distribution, piSum,
      Finset.sum_range_succ, List.range_succ, piUnnorm, birth_rate, death_rate]
  refine ⟨h1, h2, ?_⟩
  rw [h1, h2]
  norm_num

/-- C7 (amended): for identical `(mu, gamma, n, m, k)` with valid parameters
(`n ≥ m`, in particular both `n > m` and `n = m`), cold-standby availability
is greater than or equal to warm-standby availability; when `n = m` the
inequality may be strict. -/
theorem cold_ge_warm (mu gamma : ℚ) (n m k : ℕ)
    (hmu : 0 ≤ mu) (hgamma : 0 ≤ gamma) (hm : 1 ≤ m) (hmn : m ≤ n) (hk : 1 ≤ k) :
    system_availability mu gamma true n m k ≤ system_availability mu gamma false n m k := by
  rcases eq_or_lt_of_le hgamma with h | h
  · rw [← h, availability_gamma_zero, availability_gamma_zero]
  · rw [availability_eq_frac mu true n m h hk, availability_eq_frac mu false n m h hk]
    apply ratio_avail_antitone _ _ ?_ ?_ _ _ (Nat.sub_le n m)
    · intro j
      exact div_nonneg (death_rate_nonneg hmu false n m j)
        (le_of_lt (birth_rate_pos h hk j))
    · intro j
      have hb := birth_rate_pos h hk j
      rw [div_le_div_iff hb hb]
      exact mul_le_mul_of_nonneg_right (death_rate_cold_le_warm hmu n m j)
        (le_of_lt hb)

/-- Witness for C7 (amended) at `mu = 1, gamma = 1, n = 3, m = 2, k = 1`. -/
theorem cold_ge_warm_witness :
    system_availability 1 1 true 3 2 1 ≤ system_availability 1 1 false 3 2 1 :=
  cold_ge_warm 1 1 3 2 1 (by norm_num) (by norm_num) (by norm_num) (by norm_num)
    (by norm_num)

/-! ### The optimizer scan (claims C4, C5) -/

lemma optStep_infeasible (mu gamma : ℚ) (w : Bool) (m : ℕ) (cc rc dc : ℚ)
    (n k : ℕ) (st : OptState) (h : n < m) :
    optStep mu gamma w m cc rc dc n k st = st := by
  unfold optStep
  rw [if_pos (by omega)]

lemma inner_fold_infeasible (mu gamma : ℚ) (w : Bool) (m : ℕ) (cc rc dc : ℚ)
    (n : ℕ) (h : n < m) :
    ∀ (k_range : List ℕ) (st : OptState),
      k_range.foldl (fun st k => optStep mu gamma w m cc rc dc n k st) st = st := by
  intro k_range
  induction k_range with
  | nil => intro st; rfl
  | cons a l ih =>
    intro st
    rw [List.foldl_cons, optStep_infeasible mu gamma w m cc rc dc n a st h]
    exact ih st

/-- C5: if no `n` in `nRange` satisfies `requiredComponents ≤ n`, the
optimizer returns the explicit empty result `(none, none, ⊤)` — in
particular, it never returns zero-valued (or any numeric) `n`/`k`. -/
theorem optimizer_no_feasible (mu gamma : ℚ) (w : Bool) (m : ℕ) (cc rc dc : ℚ)
    (n_range k_range : List ℕ) (h : ∀ n ∈ n_range, n < m) :
    optimize_components_and_repairmen mu gamma w m cc rc dc n_range k_range =
      (none, none, (⊤ : WithTop ℚ)) := by
  unfold optimize_components_and_repairmen
  induction n_range with
  | nil => rfl
  | cons a l ih =>
    rw [List.foldl_cons,
      inner_fold_infeasible mu gamma w m cc rc dc a (h a (by simp)) k_range]
    exact ih fun x hx => h x (List.mem_cons_of_mem a hx)

/-- Witness for C5: `nRange = [1, 2]` is entirely below `m = 3`. -/
theorem optimizer_no_feasible_witness :
    optimize_components_and_repairmen 1 1 true 3 5 10 1000 [1, 2] [1] =
      (none, none, (⊤ : WithTop ℚ)) :=
  optimizer_no_feasible 1 1 true 3 5 10 1000 [1, 2] [1] (by decide)

/-- The optimizer's grid in iteration order: all `(n, k)` pairs, outer loop
over `n_range`, inner loop over `k_range`. -/
def gridPairs (n_range k_range : List ℕ) : List (ℕ × ℕ) :=
  n_range.flatMap (fun n => k_range.map (fun k => (n, k)))

/-- One scan step, operating on an `(n, k)` pair of the flattened grid. -/
def optPairStep (mu gamma : ℚ) (w : Bool) (m : ℕ) (cc rc dc : ℚ)
    (st : OptState) (p : ℕ × ℕ) : OptState :=
  optStep mu gamma w m cc rc dc p.1 p.2 st

lemma nested_foldl_eq_pairs (mu gamma : ℚ) (w : Bool) (m : ℕ) (cc rc dc : ℚ)
    (k_range : List ℕ) :
    ∀ (n_range : List ℕ) (init : OptState),
      n_range.foldl
        (fun st n => k_range.foldl
          (fun st k => optStep mu gamma w m cc rc dc n k st) st) init =
      (gridPairs n_range k_range).foldl (optPairStep mu gamma w m cc rc dc) init := by
  intro n_range
  induction n_range with
  | nil => intro init; rfl
  | cons a l ih =>
    intro init
    rw [List.foldl_cons]
    have hgrid : gridPairs (a :: l) k_range =
        k_range.map (fun k => (a, k)) ++ gridPairs l k_range := by
      simp [gridPairs]
    rw [hgrid, List.foldl_append, List.foldl_map, ih]
    rfl

lemma optimize_eq_foldl_pairs (mu gamma : ℚ) (w : Bool) (m : ℕ) (cc rc dc : ℚ)
    (n_range k_range : List ℕ) :
    optimize_components_and_repairmen mu gamma w m cc rc dc n_range k_range =
      (gridPairs n_range k_range).foldl (optPairStep mu gamma w m cc rc dc)
        (none, none, (⊤ : WithTop ℚ)) :=
  nested_foldl_eq_pairs mu gamma w m cc rc dc k_range n_range _

lemma optStep_min_le (mu gamma : ℚ) (w : Bool) (m : ℕ) (cc rc dc : ℚ)
    (n k : ℕ) (st : OptState) :
    (optStep mu gamma w m cc rc dc n k st).2.2 ≤ st.2.2 := by
  unfold optStep
  split
  · exact le_refl _
  · split
    · next h => exact le_of_lt h
    · exact le_refl _

lemma foldl_min_le (mu gamma : ℚ) (w : Bool) (m : ℕ) (cc rc dc : ℚ) :
    ∀ (l : List (ℕ × ℕ)) (st : OptState),
      (l.foldl (optPairStep mu gamma w m cc rc dc) st).2.2 ≤ st.2.2 := by
  intro l
  induction l with
  | nil => intro st; exact le_refl _
  | cons p l ih =>
    intro st
    rw [List.foldl_cons]
    exact le_trans (ih _) (optStep_min_le mu gamma w m cc rc dc p.1 p.2 st)

lemma optStep_min_le_cost (mu gamma : ℚ) (w : Bool) (m : ℕ) (cc rc dc : ℚ)
    (n k : ℕ) (st : OptState) (h : m ≤ n) :
    (optStep mu gamma w m cc rc dc n k st).2.2 ≤
      (costOf mu gamma w m cc rc dc n k : WithTop ℚ) := by
  unfold optStep
  rw [if_neg (by omega)]
  split
  · exact le_refl _
  · next h2 => exact le_of_not_lt h2

lemma foldl_min_le_cost (mu gamma : ℚ) (w : Bool) (m : ℕ) (cc rc dc : ℚ)
    (p : ℕ × ℕ) (hf : m ≤ p.1) :
    ∀ (l : List (ℕ × ℕ)) (st : OptState), p ∈ l →
      (l.foldl (optPairStep mu gamma w m cc rc dc) st).2.2 ≤
        (costOf mu gamma w m cc rc dc p.1 p.2 : WithTop ℚ) := by
  intro l
  induction l with
  | nil => intro st hp; cases hp
  | cons q l ih =>
    intro st hp
    rw [List.foldl_cons]
    rcases List.mem_cons.mp hp with rfl | h
    · exact le_trans (foldl_min_le mu gamma w m cc rc dc l _)
        (optStep_min_le_cost mu gamma w m cc rc dc p.1 p.2 st hf)
    · exact ih _ h

lemma optStep_bests (mu gamma : ℚ) (w : Bool) (m : ℕ) (cc rc dc : ℚ)
    (n k : ℕ) (st : OptState) :
    ((optStep mu gamma w m cc rc dc n k st).1,
      (optStep mu gamma w m cc rc dc n k st).2.1) = (st.1, st.2.1) ∨
    ((optStep mu gamma w m cc rc dc n k st).1,
      (optStep mu gamma w m cc rc dc n k st).2.1) = (some n, some k) := by
  unfold optStep
  split
  · exact Or.inl rfl
  · split
    · exact Or.inr rfl
    · exact Or.inl rfl

lemma foldl_bests (mu gamma : ℚ) (w : Bool) (m : ℕ) (cc rc dc : ℚ) :
    ∀ (l : List (ℕ × ℕ)) (st : OptState),
      ((l.foldl (optPairStep mu gamma w m cc rc dc) st).1,
        (l.foldl (optPairStep mu gamma w m cc rc dc) st).2.1) = (st.1, st.2.1) ∨
      ∃ p ∈ l,
        ((l.foldl (optPairStep mu gamma w m cc rc dc) st).1,
          (l.foldl (optPairStep mu gamma w m cc rc dc) st).2.1) = (some p.1, some p.2) := by
  intro l
  induction l with
  | nil => intro st; exact Or.inl rfl
  | cons q l ih =>
    intro st
    rw [List.foldl_cons]
    rcases ih (optPairStep mu gamma w m cc rc dc st q) with h | ⟨p, hp, h⟩
    · rcases optStep_bests mu gamma w m cc rc dc q.1 q.2 st with h2 | h2
      · exact Or.inl (h.trans h2)
      · exact Or.inr ⟨q, List.mem_cons_self q l, h.trans h2⟩
    · exact Or.inr ⟨p, List.mem_cons_of_mem q hp, h⟩

lemma foldl_no_late_tie (mu gamma : ℚ) (w : Bool) (m : ℕ) (cc rc dc : ℚ)
    (n2 k2 : ℕ) :
    ∀ (l : List (ℕ × ℕ)) (st : OptState),
      st.2.2 ≤ (costOf mu gamma w m cc rc dc n2 k2 : WithTop ℚ) →
      (st.1, st.2.1) ≠ (some n2, some k2) →
      ((l.foldl (optPairStep mu gamma w m cc rc dc) st).1,
        (l.foldl (optPairStep mu gamma w m cc rc dc) st).2.1) ≠ (some n2, some k2) := by
  intro l
  induction l with
  | nil => intro st h1 h2; exact h2
  | cons p l ih =>
    intro st h1 h2
    rw [List.foldl_cons]
    have hstep : optPairStep mu gamma w m cc rc dc st p =
        optStep mu gamma w m cc rc dc p.1 p.2 st := rfl
    rw [hstep]
    unfold optStep
    split
    · exact ih st h1 h2
    · split
      · next hc =>
        apply ih
        · exact le_trans (le_of_lt hc) h1
        · intro heq
          have hpq : p.1 = n2 ∧ p.2 = k2 := by simpa using heq
          rw [hpq.1, hpq.2] at hc
          exact absurd (lt_of_lt_of_le hc h1) (lt_irrefl _)
      · exact ih st h1 h2

/-- Central tie-break invariant: if a feasible pair `(n1, k1)` with the same
cost as `(n2, k2)` lies in the processed part `P` of the grid, and no pair of
`P` has the value `(n2, k2)`, then the scan over `P ++ S` never ends with
`(n2, k2)` as the recorded best pair. -/
lemma key_no_late_tie (mu gamma : ℚ) (w : Bool) (m : ℕ) (cc rc dc : ℚ)
    (n1 k1 n2 k2 : ℕ) (P S : List (ℕ × ℕ))
    (hmem : (n1, k1) ∈ P) (hf1 : m ≤ n1)
    (hcost : costOf mu gamma w m cc rc dc n1 k1 = costOf mu gamma w m cc rc dc n2 k2)
    (hP : ∀ p ∈ P, p.1 ≠ n2 ∨ p.2 ≠ k2) :
    (((P ++ S).foldl (optPairStep mu gamma w m cc rc dc)
        (none, none, (⊤ : WithTop ℚ))).1,
      ((P ++ S).foldl (optPairStep mu gamma w m cc rc dc)
        (none, none, (⊤ : WithTop ℚ))).2.1) ≠ (some n2, some k2) := by
  rw [List.foldl_append]
  apply foldl_no_late_tie
  · have h := foldl_min_le_cost mu gamma w m cc rc dc (n1, k1) hf1 P
      (none, none, (⊤ : WithTop ℚ)) hmem
    rw [hcost] at h
    exact h
  · rcases foldl_bests mu gamma w m cc rc dc P (none, none, (⊤ : WithTop ℚ)) with h | ⟨p, hp, h⟩
    · rw [h]
      simp
    · rw [h]
      rcases hP p hp with h2 | h2 <;> simp [h2]

lemma sorted_split_lt {l : List ℕ} {a b : ℕ} (hs : List.Sorted (· < ·) l)
    (ha : a ∈ l) (hb : b ∈ l) (hab : a < b) :
    ∃ l1 l2, l = l1 ++ a :: l2 ∧ b ∈ l2 ∧ ∀ x ∈ l1, x < a := by
  induction l with
  | nil => cases ha
  | cons c cs ih =>
    rw [List.sorted_cons] at hs
    rcases List.mem_cons.mp ha with rfl | ha'
    · refine ⟨[], cs, rfl, ?_, by simp⟩
      rcases List.mem_cons.mp hb with rfl | hb'
      · exact absurd hab (lt_irrefl _)
      · exact hb'
    · have hb' : b ∈ cs := by
        rcases List.mem_cons.mp hb with rfl | h
        · exact absurd (lt_trans (hs.1 a ha') hab) (lt_irrefl _)
        · exact h
      obtain ⟨l1, l2, heq, hbl2, hl1⟩ := ih hs.2 ha' hb'
      refine ⟨c :: l1, l2, by rw [heq]; rfl, hbl2, ?_⟩
      intro x hx
      rcases List.mem_cons.mp hx with rfl | hx'
      · exact hs.1 a ha'
      · exact hl1 x hx'

lemma sorted_split_mem {l : List ℕ} {a : ℕ} (hs : List.Sorted (· < ·) l)
    (ha : a ∈ l) :
    ∃ l1 l2, l = l1 ++ a :: l2 ∧ (∀ x ∈ l1, x < a) ∧ ∀ x ∈ l2, a < x := by
  induction l with
  | nil => cases ha
  | cons c cs ih =>
    rw [List.sorted_cons] at hs
    rcases List.mem_cons.mp ha with rfl | ha'
    · exact ⟨[], cs, rfl, by simp, hs.1⟩
    · obtain ⟨l1, l2, heq, hl1, hl2⟩ := ih hs.2 ha'
      refine ⟨c :: l1, l2, by rw [heq]; rfl, ?_, hl2⟩
      intro x hx
      rcases List.mem_cons.mp hx with rfl | hx'
      · exact hs.1 a ha'
      · exact hl1 x hx'

/-- C4: the optimizer updates its running minimum only on a strictly smaller
cost, scanning `nRange` (outer, ascending) and `kRange` (inner, ascending);
hence of two feasible pairs `(n1, k1)` and `(n2, k2)` with identical cost,
where `(n1, k1)` comes first in ascending-`n`-then-ascending-`k` order, the
later pair `(n2, k2)` is never the returned one: if either of the two is
returned, it is the first. -/
theorem optimizer_tie_prefers_first (mu gamma : ℚ) (w : Bool) (m : ℕ)
    (cc rc dc : ℚ) (n_range k_range : List ℕ) (n1 k1 n2 k2 : ℕ)
    (hsn : List.Sorted (· < ·) n_range) (hsk : List.Sorted (· < ·) k_range)
    (hn1 : n1 ∈ n_range) (hk1 : k1 ∈ k_range) (hn2 : n2 ∈ n_range)
    (hk2 : k2 ∈ k_range) (hf1 : m ≤ n1) (hf2 : m ≤ n2)
    (hcost : costOf mu gamma w m cc rc dc n1 k1 = costOf mu gamma w m cc rc dc n2 k2)
    (hlex : n1 < n2 ∨ (n1 = n2 ∧ k1 < k2)) :
    ((optimize_components_and_repairmen mu gamma w m cc rc dc n_range k_range).1,
      (optimize_components_and_repairmen mu gamma w m cc rc dc n_range k_range).2.1)
      ≠ (some n2, some k2) := by
  rw [optimize_eq_foldl_pairs]
  rcases hlex with hlt | ⟨heq, hklt⟩
  · obtain ⟨l1, l2, hdec, hbl2, hl1⟩ := sorted_split_lt hsn hn1 hn2 hlt
    have hgrid : gridPairs n_range k_range =
        (l1.flatMap (fun n => k_range.map (fun k => (n, k)))
          ++ k_range.map (fun k => (n1, k)))
        ++ gridPairs l2 k_range := by
      rw [gridPairs, hdec]
      simp [gridPairs, List.append_assoc]
    rw [hgrid]
    apply key_no_late_tie mu gamma w m cc rc dc n1 k1 n2 k2 _ _ ?_ hf1 hcost ?_
    · exact List.mem_append_right _ (List.mem_map.mpr ⟨k1, hk1, rfl⟩)
    · intro p hp
      rcases List.mem_append.mp hp with h | h
      · obtain ⟨a, hal, hpa⟩ := List.mem_flatMap.mp h
        obtain ⟨kk, _, rfl⟩ := List.mem_map.mp hpa
        exact Or.inl (by have := hl1 a hal; omega)
      · obtain ⟨kk, _, rfl⟩ := List.mem_map.mp h
        exact Or.inl (by omega)
  · subst heq
    obtain ⟨c, d, hdec, hc, hd⟩ := sorted_split_mem hsn hn1
    obtain ⟨a2, b2, hkdec, hb2, ha2⟩ := sorted_split_lt hsk hk1 hk2 hklt
    have hmid : k_range.map (fun k => (n1, k)) =
        a2.map (fun k => (n1, k))
          ++ ((n1, k1) :: b2.map (fun k => (n1, k))) := by
      rw [hkdec]
      simp
    have hgrid : gridPairs n_range k_range =
        ((c.flatMap (fun n => k_range.map (fun k => (n, k)))
            ++ (a2.map (fun k => (n1, k)) ++ [(n1, k1)]))
          ++ (b2.map (fun k => (n1, k))
            ++ d.flatMap (fun n => k_range.map (fun k => (n, k))))) := by
      rw [gridPairs, hdec]
      rw [List.flatMap_append, List.flatMap_cons, hmid]
      simp [List.append_assoc]
    rw [hgrid]
    apply key_no_late_tie mu gamma w m cc rc dc n1 k1 n1 k2 _ _ ?_ hf1 hcost ?_
    · exact List.mem_append_right _ (List.mem_append_right _ (by simp))
    · intro p hp
      rcases List.mem_append.mp hp with h | h
      · obtain ⟨a, hal, hpa⟩ := List.mem_flatMap.mp h
        obtain ⟨kk, _, rfl⟩ := List.mem_map.mp hpa
        exact Or.inl (by have := hc a hal; omega)
      · rcases List.mem_append.mp h with h2 | h2
        · obtain ⟨kk, hkk, rfl⟩ := List.mem_map.mp h2
          exact Or.inr (by have := ha2 kk hkk; omega)
        · have hp1 : p = (n1, k1) := by simpa using h2
          rw [hp1]
          exact Or.inr (by omega)

/-- Witness for C4: with all three cost coefficients equal to `0`, the
feasible pairs `(1, 1)` and `(2, 1)` tie, and the later pair `(2, 1)` is not
the returned one. -/
theorem optimizer_tie_prefers_first_witness :
    ((optimize_components_and_repairmen 1 1 true 1 0 0 0 [1, 2] [1]).1,
      (optimize_components_and_repairmen 1 1 true 1 0 0 0 [1, 2] [1]).2.1)
      ≠ (some 2, some 1) :=
  optimizer_tie_prefers_first 1 1 true 1 0 0 0 [1, 2] [1] 1 1 2 1
    (by simp) (by simp) (by simp) (by simp) (by simp) (by simp)
    (by norm_num) (by norm_num) (by norm_num [costOf])
    (Or.inl (by norm_num))

end Maintenance
